import Mathlib

/-!
# Verification of the `gdwg::graph` store (src/src/gdwg_graph.h)

Shallow embedding of the generic directed weighted graph container.
The C++ stores a `std::map<N, std::pair<set, set>>` from node value to a
pair of edge sets (outgoing, incoming); edges are `shared_ptr<edge>`
payloads holding (src, dst, optional weight).  Here the map is a
key-sorted association list and each edge set is a list of edge contents
kept in the set's comparator order.  Since `insert_edge` refuses (via
`existed_edge`) to insert an edge whose content already occurs in either
target set, no reachable set ever holds two content-equal elements, so
the comparator's final address tie-break never decides the order of two
stored elements and the content order below reproduces the set order
exactly.  The address tie-break itself is modelled separately (`EdgeP`,
`cmpPtr`) for the claim about the comparator.

Exceptions (`std::runtime_error`) are modelled with `Except String`;
every mutating operation returns the resulting store together with the
outcome, so a call that throws after a partial mutation keeps the
mutated store, exactly as the C++ object would.
-/

deriving instance DecidableEq for Except

namespace GDWG

/-- Content of one edge payload: source, destination and optional weight
(`none` = `unweighted_edge`, `some w` = `weighted_edge`).  Structural
equality of this type is exactly `edge::operator==` of the source:
sources equal, destinations equal, and weightedness-with-weight equal. -/
structure EdgeC (N E : Type) where
  src : N
  dst : N
  weight : Option E
deriving DecidableEq, Repr

/-- Adjacency record of one node: the pair
`(outgoing edge set, incoming edge set)` (`edge_ptr_set_pair`). -/
structure NodeRec (N E : Type) where
  outgoing : List (EdgeC N E)
  incoming : List (EdgeC N E)
deriving DecidableEq, Repr

/-- The store `g_`: a key-sorted association list modelling
`std::map<N, edge_ptr_set_pair>`. -/
abbrev Graph (N E : Type) := List (N × NodeRec N E)

variable {N E : Type} [LinearOrder N] [LinearOrder E]

/-- Steps 1-4 of `EdgePtrComparator`, the content part of the edge
order: by source, then destination, then unweighted-before-weighted,
then weight; content-equal edges fall through (to the address tie-break
in the C++, which never decides between two stored elements). -/
def edgeLt (a b : EdgeC N E) : Bool :=
  if a.src ≠ b.src then decide (a.src < b.src)
  else if a.dst ≠ b.dst then decide (a.dst < b.dst)
  else if a.weight.isSome ≠ b.weight.isSome then !a.weight.isSome
  else match a.weight, b.weight with
    | some x, some y => if x ≠ y then decide (x < y) else false
    | _, _ => false

/-- One `shared_ptr<edge>` as the comparator sees it: its content plus
the allocation address of the payload. -/
structure EdgeP (N E : Type) where
  c : EdgeC N E
  addr : Nat
deriving DecidableEq, Repr

/-- `EdgePtrComparator::operator()` in full (lines 212-244): pointer
equality short-circuit, the four content steps, then
`std::less<const edge_*>` on the storage addresses. -/
def cmpPtr (a b : EdgeP N E) : Bool :=
  if a.addr = b.addr then false
  else if a.c.src ≠ b.c.src then decide (a.c.src < b.c.src)
  else if a.c.dst ≠ b.c.dst then decide (a.c.dst < b.c.dst)
  else if a.c.weight.isSome ≠ b.c.weight.isSome then !a.c.weight.isSome
  else match a.c.weight, b.c.weight with
    | some x, some y => if x ≠ y then decide (x < y) else decide (a.addr < b.addr)
    | _, _ => decide (a.addr < b.addr)

/-- Insertion into an edge set, in comparator order (`std::set::insert`;
the inserted content is never content-equal to a stored element, see the
header comment). -/
def insertSorted (e : EdgeC N E) : List (EdgeC N E) → List (EdgeC N E)
  | [] => [e]
  | x :: t => if edgeLt e x then e :: x :: t else x :: insertSorted e t

/-- `std::find_if` + `std::set::erase`: remove the first content-equal
element, if any; `none` when no element matches. -/
def removeFirst (e : EdgeC N E) : List (EdgeC N E) → Option (List (EdgeC N E))
  | [] => none
  | x :: t =>
    if x = e then some t
    else (removeFirst e t).map (x :: ·)

/-- `g_.find(k)`: the value stored under key `k`, if any. -/
def lookupG (g : Graph N E) (k : N) : Option (NodeRec N E) :=
  (g.find? (fun p => p.1 = k)).map (·.2)

/-- `is_node` (line 652): key lookup succeeds. -/
def isNode (g : Graph N E) (k : N) : Bool :=
  (lookupG g k).isSome

/-- Outgoing edge set of a node (`g_[k].first`; the code only reads it
for keys that are present). -/
def outOf (g : Graph N E) (k : N) : List (EdgeC N E) :=
  match lookupG g k with
  | some r => r.outgoing
  | none => []

/-- Incoming edge set of a node (`g_[k].second`). -/
def inOf (g : Graph N E) (k : N) : List (EdgeC N E) :=
  match lookupG g k with
  | some r => r.incoming
  | none => []

/-- Update the record stored under an existing key. -/
def updG (g : Graph N E) (k : N) (f : NodeRec N E → NodeRec N E) : Graph N E :=
  g.map (fun p => if p.1 = k then (p.1, f p.2) else p)

/-- Key-sorted insertion of a fresh empty record
(`g_[value] = edge_ptr_set_pair()` on an absent key). -/
def insKey (k : N) : Graph N E → Graph N E
  | [] => [(k, ⟨[], []⟩)]
  | (k', r) :: t => if k < k' then (k, ⟨[], []⟩) :: (k', r) :: t else (k', r) :: insKey k t

/-- Erase a key from the map (`g_.erase(k)`; touches nothing else). -/
def eraseKey (g : Graph N E) (k : N) : Graph N E :=
  g.filter (fun p => p.1 ≠ k)

/-- The empty graph (default constructor). -/
def emptyG : Graph N E := []

/-- `nodes()` (lines 685-694): all keys in map order. -/
def nodesL (g : Graph N E) : List N := g.map (·.1)

/-- `insert_node` (lines 341-347). -/
def insertNode (g : Graph N E) (v : N) : Graph N E × Bool :=
  if isNode g v then (g, false) else (insKey v g, true)

/-- `create_edge_ptr` (lines 363-369): the content of the allocated
payload. -/
def createEdge (src dst : N) (w : Option E) : EdgeC N E := ⟨src, dst, w⟩

/-- `existed_edge` (lines 372-386): some stored element is
content-equal to the probe. -/
def existedEdge (edges : List (EdgeC N E)) (e : EdgeC N E) : Bool :=
  edges.any (fun x => x = e)

/-- Verbatim exception messages of the seven argument-checked
operations.  The apostrophes are assembled from their character code. -/
def apos : String := String.singleton (Char.ofNat 39)

def msgInsertEdge : String :=
  "Cannot call gdwg::graph<N, E>::insert_edge when either src or dst node does not exist"

def msgReplaceNode : String :=
  "Cannot call gdwg::graph<N, E>::replace_node on a node that doesn" ++ apos ++ "t exist"

def msgMergeReplace : String :=
  "Cannot call gdwg::graph<N, E>::merge_replace_node on old or new data if they don" ++ apos ++ "t exist in the graph"

def msgEraseEdge : String :=
  "Cannot call gdwg::graph<N, E>::erase_edge on src or dst if they don" ++ apos ++ "t exist in the graph"

def msgIsConnected : String :=
  "Cannot call gdwg::graph<N, E>::is_connected if src or dst node don" ++ apos ++ "t exist in the graph"

def msgEdges : String :=
  "Cannot call gdwg::graph<N, E>::edges if src or dst node don" ++ apos ++ "t exist in the graph"

def msgConnections : String :=
  "Cannot call gdwg::graph<N, E>::connections if src doesn" ++ apos ++ "t exist in the graph"

/-- `insert_edge` (lines 388-402): throws if an endpoint is absent;
returns `false` if a content-equal edge is found in `src`'s outgoing or
`dst`'s incoming set; otherwise links the one payload into both sets
(the two `std::set::insert` calls always succeed on a fresh allocation)
and returns `true`. -/
def insertEdge (g : Graph N E) (src dst : N) (w : Option E) :
    Graph N E × Except String Bool :=
  if !isNode g src || !isNode g dst then (g, .error msgInsertEdge)
  else
    let e := createEdge src dst w
    if existedEdge (outOf g src) e || existedEdge (inOf g dst) e then (g, .ok false)
    else
      let g1 := updG g src (fun r => { r with outgoing := insertSorted e r.outgoing })
      let g2 := updG g1 dst (fun r => { r with incoming := insertSorted e r.incoming })
      (g2, .ok true)

/-- The body of `move_node_data`'s two loops: run `insert_edge` for each
probe in order, stopping (with the exception and the store mutated so
far) at the first throw. -/
def runInserts (g : Graph N E) : List (N × N × Option E) → Graph N E × Option String
  | [] => (g, none)
  | (s, d, w) :: rest =>
    match insertEdge g s d w with
    | (g', .ok _) => runInserts g' rest
    | (g', .error m) => (g', some m)

/-- `move_node_data` (lines 417-433).  The outgoing loop re-inserts each
outgoing edge of `old` with source `new`; it never mutates the iterated
set (`insert_edge` there touches `g_[new].first` with `new ≠ old`, and
incoming sets only).  The incoming loop then iterates `g_[old].second`
as left by the outgoing loop (which may have added edges `(new, old)`
when `old` had reflexive edges) and re-inserts each with destination
`new`; it never mutates that set either.  Finally `g_.erase(old)` drops
only `old`'s own record. -/
def moveNodeData (g : Graph N E) (old new : N) : Graph N E × Option String :=
  match runInserts g ((outOf g old).map (fun e => (new, e.dst, e.weight))) with
  | (g1, some m) => (g1, some m)
  | (g1, none) =>
    match runInserts g1 ((inOf g1 old).map (fun e => (e.src, new, e.weight))) with
    | (g2, some m) => (g2, some m)
    | (g2, none) => (eraseKey g2 old, none)

/-- `replace_node` (lines 435-448). -/
def replaceNode (g : Graph N E) (old new : N) : Graph N E × Except String Bool :=
  if !isNode g old then (g, .error msgReplaceNode)
  else if isNode g new then (g, .ok false)
  else
    match moveNodeData (insertNode g new).1 old new with
    | (g2, none) => (g2, .ok true)
    | (g2, some m) => (g2, .error m)

/-- `merge_replace_node` (lines 462-472). -/
def mergeReplaceNode (g : Graph N E) (old new : N) : Graph N E × Except String Unit :=
  if !isNode g old || !isNode g new then (g, .error msgMergeReplace)
  else if old = new then (g, .ok ())
  else
    match moveNodeData g old new with
    | (g2, none) => (g2, .ok ())
    | (g2, some m) => (g2, .error m)

/-- `erase_node` (lines 479-503): clears the node's own sets, strips
every other record of edges whose far endpoint is the node, then erases
the record. -/
def eraseNode (g : Graph N E) (v : N) : Graph N E × Bool :=
  if !isNode g v then (g, false)
  else
    (g.filterMap (fun p =>
      if p.1 = v then none
      else some (p.1, ⟨p.2.outgoing.filter (fun e => e.dst ≠ v),
                      p.2.incoming.filter (fun e => e.src ≠ v)⟩)), true)

/-- `erase_edge(src, dst, weight)` (lines 517-554): after the node
check, erase the first content-equal edge from `src`'s outgoing set; if
none, return `false` untouched.  Then erase it from `dst`'s incoming
set; if absent there, return `false` with the outgoing erase kept (the
half-mutated store is what the C++ object retains). -/
def eraseEdge (g : Graph N E) (src dst : N) (w : Option E) :
    Graph N E × Except String Bool :=
  if !isNode g src || !isNode g dst then (g, .error msgEraseEdge)
  else
    let e := createEdge src dst w
    match removeFirst e (outOf g src) with
    | none => (g, .ok false)
    | some out' =>
      let g1 := updG g src (fun r => { r with outgoing := out' })
      match removeFirst e (inOf g1 dst) with
      | none => (g1, .ok false)
      | some inc' => (updG g1 dst (fun r => { r with incoming := inc' }), .ok true)

/-- `clear` (lines 623-625). -/
def clearG (_ : Graph N E) : Graph N E := []

/-- `is_connected` (lines 668-679). -/
def isConnected (g : Graph N E) (src dst : N) : Except String Bool :=
  if !isNode g src || !isNode g dst then .error msgIsConnected
  else .ok ((outOf g src).any (fun e => e.dst = dst))

/-- The filtering step of `edges` (lines 703-721): the outgoing edges of
`src` whose destination is `dst`, in set order. -/
def edgesL (g : Graph N E) (src dst : N) : List (EdgeC N E) :=
  (outOf g src).filter (fun e => e.dst = dst)

/-- `edges` with its argument check. -/
def edgesQ (g : Graph N E) (src dst : N) : Except String (List (EdgeC N E)) :=
  if !isNode g src || !isNode g dst then .error msgEdges
  else .ok (edgesL g src dst)

/-- Sorted-unique insertion for `std::set<N>` in `connections`. -/
def insUnique (n : N) : List N → List N
  | [] => [n]
  | x :: t => if n < x then n :: x :: t else if n = x then x :: t else x :: insUnique n t

/-- `connections` (lines 755-774): the sorted set of destinations of
`src`'s outgoing edges. -/
def connections (g : Graph N E) (src : N) : Except String (List N) :=
  if !isNode g src then .error msgConnections
  else .ok ((outOf g src).foldl (fun acc e => insUnique e.dst acc) [])

/-! ## The traversal cursor

A `graph::iterator` holds a map iterator (`current_node_`), a set
iterator (`current_edge_`) and a raw graph pointer (`graph_ptr_`).  A
position in the association list is the pair of the list suffix starting
at the current node and the suffix of that node's outgoing set starting
at the current edge (an STL iterator is exactly a position in the
underlying ordered container).  `p = none` is the end sentinel
(`current_node_ == g_.end()`), and `gid = none` models a null
`graph_ptr_` (value-initialized cursor).  `gid` stands for the graph
object's address, so two cursors satisfy `graph_ptr_ == other.graph_ptr_`
iff their `gid`s are equal. -/

/-- A position: suffix of the store at the current node, suffix of that
node's outgoing set at the current edge. -/
abbrev Pos (N E : Type) := List (N × NodeRec N E) × List (EdgeC N E)

structure Cursor (N E : Type) where
  gid : Option Nat
  p : Option (Pos N E)
deriving DecidableEq, Repr

/-- A value-initialized cursor: null `graph_ptr_`. -/
def viC : Cursor N E := ⟨none, none⟩

/-- `iterator::end(g)` (lines 890-892). -/
def endC (gid : Nat) : Cursor N E := ⟨some gid, none⟩

/-- The scan of `iterator::begin` (lines 876-888): first node suffix
with a non-empty outgoing set, positioned at its first edge. -/
def firstPos : List (N × NodeRec N E) → Option (Pos N E)
  | [] => none
  | (k, r) :: t =>
    if r.outgoing.isEmpty then firstPos t else some ((k, r) :: t, r.outgoing)

/-- `iterator::begin(g)` (lines 876-888). -/
def beginC (gid : Nat) (g : Graph N E) : Cursor N E := ⟨some gid, firstPos g⟩

/-- `operator++` (lines 929-942) on a position: next edge of the current
node, else the first edge of the next node with a non-empty outgoing
set, else end. -/
def incrPos : Pos N E → Option (Pos N E)
  | (ns, _ :: e2 :: es) => some (ns, e2 :: es)
  | (ns, _) => firstPos ns.tail

/-- `operator*` (lines 914-925): the flattened
`(from, to, optional weight)` record of the current edge; `none` when
the cursor has no current edge (dereferencing end or a value-initialized
cursor is undefined behaviour in the C++). -/
def derefC (c : Cursor N E) : Option (N × N × Option E) :=
  match c.p with
  | some (_, e :: _) => some (e.src, e.dst, e.weight)
  | _ => none

/-- `iterator::operator==` (lines 999-1033).  `none` marks the
dereference of a null `graph_ptr_` (both cursors value-initialized):
the C++ reads `graph_ptr_->g_` there, which is undefined behaviour.
Otherwise: different owning graphs compare unequal; two end positions
compare equal; an end position never equals a non-end one; two non-end
positions compare by node position, then edge-set-end state, then edge
content. -/
def cursorEq (a b : Cursor N E) : Option Bool :=
  if a.gid ≠ b.gid then some false
  else match a.gid with
  | none => none
  | some _ =>
    match a.p, b.p with
    | none, none => some true
    | none, some _ => some false
    | some _, none => some false
    | some (ns1, es1), some (ns2, es2) =>
      if ns1 ≠ ns2 then some false
      else match es1, es2 with
        | [], [] => some true
        | [], _ :: _ => some false
        | _ :: _, [] => some false
        | e1 :: _, e2 :: _ => some (decide (e1 = e2))

/-- `find` (lines 730-747): end when an endpoint is absent; otherwise
the cursor at the first content-equal outgoing edge of `src`, or end
when none matches.  The node iterator is `g_.find(src)` (the suffix at
`src`), the edge iterator the suffix at the matching edge. -/
def suffixAt (e : EdgeC N E) : List (EdgeC N E) → List (EdgeC N E)
  | [] => []
  | x :: t => if x = e then x :: t else suffixAt e t

def findG (gid : Nat) (g : Graph N E) (src dst : N) (w : Option E) : Cursor N E :=
  if !isNode g src || !isNode g dst then endC gid
  else
    match suffixAt (createEdge src dst w) (outOf g src) with
    | [] => endC gid
    | es => ⟨some gid, some (g.dropWhile (fun p => p.1 ≠ src), es)⟩

/-- `erase_edge(iterator i)` (lines 572-592): if `i == end()` return
`end()`; otherwise read `(from, to, weight)` through the cursor, take
the successor cursor, run the three-argument erase, and return the successor
on success, `i` itself when nothing was erased.  `none` marks the
undefined dereference of a cursor with no current edge. -/
def eraseEdgeIt (gid : Nat) (g : Graph N E) (i : Cursor N E) :
    Option (Graph N E × Except String (Cursor N E)) :=
  if cursorEq i (endC gid) = some true then some (g, .ok (endC gid))
  else match i.p with
    | some (ns, e :: es) =>
      let next : Cursor N E := ⟨i.gid, incrPos (ns, e :: es)⟩
      match eraseEdge g e.src e.dst e.weight with
      | (g', .ok true) => some (g', .ok next)
      | (g', .ok false) => some (g', .ok i)
      | (g', .error m) => some (g', .error m)
    | _ => none

/-- Total number of stored outgoing edges: fuel for the begin-to-end
walk (each step of `operator++` consumes one edge). -/
def totalEdges (g : Graph N E) : Nat :=
  (g.map (fun p => p.2.outgoing.length)).sum

/-- The flattened record of an edge, as `operator*` produces it. -/
def flatE (e : EdgeC N E) : N × N × Option E := (e.src, e.dst, e.weight)

/-- Iterate `operator*` / `operator++` from a position until the end
sentinel (or until the fuel runs out; `totalEdges` fuel always reaches
the end). -/
def iterFromFuel : Option (Pos N E) → Nat → List (N × N × Option E)
  | none, _ => []
  | some _, 0 => []
  | some (ns, es), fuel + 1 =>
    match es with
    | [] => []
    | e :: _ => flatE e :: iterFromFuel (incrPos (ns, es)) fuel

/-- The full begin-to-end traversal sequence of the graph: what
iterating `begin()` to `end()` with `operator*`/`operator++` yields. -/
def traverse (g : Graph N E) : List (N × N × Option E) :=
  iterFromFuel (firstPos g) (totalEdges g)

/-- The spec-side edge sequence: for the source nodes in ascending order
and the destinations in ascending order, the `edges(s, d)` results of
every pair with at least one edge, flattened to `(from, to, weight)`
records. -/
def specConcat (g : Graph N E) : List (N × N × Option E) :=
  (nodesL g).flatMap (fun s =>
    ((nodesL g).filter (fun d => !(edgesL g s d).isEmpty)).flatMap
      (fun d => (edgesL g s d).map flatE))

/-! ## Store invariant

The documented invariant of the store: keys strictly ascending (the
`std::map` order) with each node owning exactly one record, each
outgoing set strictly ascending in the edge order, each stored edge
registered under its own source, present in its destination's incoming
set, and symmetrically for incoming sets; every endpoint of a stored
edge is a node of the mapping. -/
def StoreInv (g : Graph N E) : Prop :=
  List.Pairwise (fun p q => p.1 < q.1) g ∧
  ∀ p ∈ g,
    List.Pairwise (fun a b => edgeLt a b = true) p.2.outgoing ∧
    (∀ e ∈ p.2.outgoing, e.src = p.1 ∧ isNode g e.dst = true ∧ e ∈ inOf g e.dst) ∧
    (∀ e ∈ p.2.incoming, e.dst = p.1 ∧ isNode g e.src = true ∧ e ∈ outOf g e.src)

/-- The endpoint-closure part of the invariant alone: every endpoint of
every stored edge is a node of the mapping. -/
def Closed (g : Graph N E) : Prop :=
  ∀ p ∈ g,
    (∀ e ∈ p.2.outgoing, isNode g e.src = true ∧ isNode g e.dst = true) ∧
    (∀ e ∈ p.2.incoming, isNode g e.src = true ∧ isNode g e.dst = true)

instance (g : Graph N E) : Decidable (StoreInv g) := by
  unfold StoreInv; infer_instance

instance (g : Graph N E) : Decidable (Closed g) := by
  unfold Closed; infer_instance

/-! ## Concrete stores used in the scenarios -/

/-- Nodes `{1, 2}` with the single edge `(2, 1, 5)`, built by public
operations from the empty graph. -/
def gPair : Graph Nat Nat := (insertNode (insertNode emptyG 1).1 2).1

def gEdge21 : Graph Nat Nat := (insertEdge gPair 2 1 (some 5)).1

/-- The store after `replace_node(1, 3)` on `gEdge21`. -/
def gStale : Graph Nat Nat := (replaceNode gEdge21 1 3).1

/-- Nodes `{1, 2}` with the single edge `(1, 2, 7)`, then
`replace_node(1, 3)`, then `insert_node(1)` again: node `2`'s incoming
set still holds the original handle `(1, 2, 7)` although no such edge is
reachable from any outgoing set. -/
def gStale2 : Graph Nat Nat :=
  (insertNode (replaceNode (insertEdge gPair 1 2 (some 7)).1 1 3).1 1).1

/-- The merge scenario: nodes `1, 2, 3, 4` (the spec's `A, B, C, D`)
with edges `(1,2,1)`, `(1,3,2)`, `(1,4,3)`. -/
def gMerge : Graph Nat Nat :=
  (insertEdge (insertEdge (insertEdge
    (insertNode (insertNode (insertNode (insertNode emptyG 1).1 2).1 3).1 4).1
    1 2 (some 1)).1 1 3 (some 2)).1 1 4 (some 3)).1

/-- The merge scenario with the edge `(2,2,1)` (the spec's `(B,B,1)`)
already present before the merge. -/
def gMergeDup : Graph Nat Nat := (insertEdge gMerge 2 2 (some 1)).1

/-- A small well-formed store: nodes `{1, 2}` and the edge `(1, 2, 3)`
registered in both endpoint records. -/
def gW : Graph Nat Nat :=
  [(1, ⟨[⟨1, 2, some 3⟩], []⟩), (2, ⟨[], [⟨1, 2, some 3⟩]⟩)]

/-! # Theorems -/

/-- C1.  On the graph with nodes `{1, 2}` and the single edge
`(2, 1, 5)`, `replace_node(1, 3)` returns `true` and removes node `1`,
but the original edge `(2, 1, 5)` incident to the old node is *not*
removed from node `2`'s adjacency record: `move_node_data` ends with a
bare `g_.erase(old_node)` and never strips the old node's original
edges from the other records, contradicting the documented effect of
replacing the node (the leftover edge is visible in traversal and
printing, and points at a node that no longer exists). -/
theorem replaceNode_keeps_stale_edges :
    (replaceNode gEdge21 1 3).2 = Except.ok true ∧
    isNode gStale 1 = false ∧
    (⟨2, 1, some 5⟩ : EdgeC Nat Nat) ∈ outOf gStale 2 := by decide

/-- C2.  A state reachable from the empty graph by public operations
(`insert_node 1`; `insert_node 2`; `insert_edge(2, 1, 5)`;
`replace_node(1, 3)`, all succeeding) violates the store invariant: the
stored edge `(2, 1, 5)` still sits in node `2`'s outgoing set although
its destination `1` is no longer in the mapping and no incoming set
holds it. -/
theorem reachable_state_violates_invariant :
    (insertNode (emptyG : Graph Nat Nat) 1).2 = true ∧
    (insertNode (insertNode (emptyG : Graph Nat Nat) 1).1 2).2 = true ∧
    (insertEdge gPair 2 1 (some 5)).2 = Except.ok true ∧
    (replaceNode gEdge21 1 3).2 = Except.ok true ∧
    ¬ StoreInv gStale := by decide

/-- C4, counterexample.  Two structurally equal edges stored at distinct
addresses do *not* compare equal under `EdgePtrComparator`: the one at
the lower address strictly precedes the other (step 5 of the comparator
orders by memory address), and swapping the two addresses flips the
comparison outcome, so the outcome does depend on storage addresses. -/
theorem comparator_uses_addresses :
    (⟨⟨1, 2, some 3⟩, 0⟩ : EdgeP Nat Nat).c = (⟨⟨1, 2, some 3⟩, 1⟩ : EdgeP Nat Nat).c ∧
    cmpPtr (⟨⟨1, 2, some 3⟩, 0⟩ : EdgeP Nat Nat) ⟨⟨1, 2, some 3⟩, 1⟩ = true ∧
    cmpPtr (⟨⟨1, 2, some 3⟩, 1⟩ : EdgeP Nat Nat) ⟨⟨1, 2, some 3⟩, 0⟩ = false := by decide

/-- C4, amended.  For edges of *distinct content* the comparator is a
function of content only — it coincides with the pure content order
`edgeLt` whatever the two (distinct) storage addresses are; the address
tie-break decides only between structurally equal edges at distinct
addresses, which the deduplicating `insert_edge` never stores in one
set. -/
theorem comparator_content_determined (a b : EdgeP N E)
    (haddr : a.addr ≠ b.addr) (hc : a.c ≠ b.c) :
    cmpPtr a b = edgeLt a.c b.c := by
  obtain ⟨⟨s1, d1, w1⟩, a1⟩ := a
  obtain ⟨⟨s2, d2, w2⟩, a2⟩ := b
  simp only [cmpPtr, edgeLt, if_neg haddr]
  rcases w1 with _ | x <;> rcases w2 with _ | y <;> simp_all

theorem comparator_content_determined_witness :
    (⟨⟨1, 2, none⟩, 0⟩ : EdgeP Nat Nat).addr ≠ (⟨⟨1, 3, none⟩, 7⟩ : EdgeP Nat Nat).addr ∧
    cmpPtr (⟨⟨1, 2, none⟩, 0⟩ : EdgeP Nat Nat) ⟨⟨1, 3, none⟩, 7⟩ =
      edgeLt (⟨1, 2, none⟩ : EdgeC Nat Nat) ⟨1, 3, none⟩ :=
  ⟨by decide, comparator_content_determined ⟨⟨1, 2, none⟩, 0⟩ ⟨⟨1, 3, none⟩, 7⟩
    (by decide) (by decide)⟩

/-- C6.  On nodes `1..4` (the spec's `A..D`) with edges `(1,2,1)`,
`(1,3,2)`, `(1,4,3)`, `merge_replace_node(1, 2)` yields exactly the
edges `(2,2,1)`, `(2,3,2)`, `(2,4,3)` (the begin-to-end edge sequence of
the result, which is what iteration, `edges`, printing and equality
observe); and when `(2,2,1)` already existed before the merge the result
is the same sequence, containing exactly one `(2,2,1)`. -/
theorem merge_replace_scenario :
    traverse (mergeReplaceNode gMerge 1 2).1 =
      [(2, 2, some 1), (2, 3, some 2), (2, 4, some 3)] ∧
    traverse (mergeReplaceNode gMergeDup 1 2).1 =
      [(2, 2, some 1), (2, 3, some 2), (2, 4, some 3)] ∧
    (traverse (mergeReplaceNode gMergeDup 1 2).1).count (2, 2, some 1) = 1 := by decide

/-- C9.  Comparing two value-initialized cursors runs
`current_node_ == graph_ptr_->g_.end()` with `graph_ptr_ == nullptr`
(modelled as the `none` outcome): undefined behaviour where the
container requirements (and the repository's own assignment text,
§2.9.1) demand that they compare equal.  A value-initialized cursor
compared with an attached `begin()`/`end()` cursor does return `false`
(the null/graph-address mismatch short-circuits before the bad
dereference). -/
theorem vi_cursor_comparison_null_deref :
    cursorEq (viC : Cursor Nat Nat) viC = none ∧
    cursorEq (viC : Cursor Nat Nat) (endC 0) = some false ∧
    cursorEq (viC : Cursor Nat Nat) (beginC 0 gEdge21) = some false := by decide

/-- C10.  `erase_edge(i)` called with `i` equal to this graph's `end()`
cursor takes the `i == end()` short-circuit: it returns `end()` and the
store is returned untouched. -/
theorem eraseEdgeIt_end_noop {N E : Type} [LinearOrder N] [LinearOrder E]
    (gid : Nat) (g : Graph N E) :
    eraseEdgeIt gid g (endC gid) = some (g, .ok (endC gid)) := by
  simp [eraseEdgeIt, cursorEq, endC]

/-! ## Store lemmas -/

theorem lookupG_updG (g : Graph N E) (k k' : N) (f : NodeRec N E → NodeRec N E) :
    lookupG (updG g k f) k' = (lookupG g k').map (fun r => if k' = k then f r else r) := by
  induction g with
  | nil => simp [lookupG, updG]
  | cons p t ih =>
    obtain ⟨a, r⟩ := p
    by_cases ha : a = k'
    · subst ha
      by_cases hak : a = k
      · subst hak
        simp [lookupG, updG, List.find?_cons_of_pos]
      · simp [lookupG, updG, List.find?_cons_of_pos, hak]
    · by_cases hak : a = k
      · subst hak
        simp only [lookupG, updG, List.map_cons, if_pos rfl] at *
        rw [List.find?_cons_of_neg, List.find?_cons_of_neg] <;> simp_all
      · simp only [lookupG, updG, List.map_cons, if_neg hak] at *
        rw [List.find?_cons_of_neg, List.find?_cons_of_neg] <;> simp_all

theorem isNode_updG (g : Graph N E) (k k' : N) (f : NodeRec N E → NodeRec N E) :
    isNode (updG g k f) k' = isNode g k' := by
  simp only [isNode, lookupG_updG]
  cases lookupG g k' <;> simp

theorem outOf_updG_inc (g : Graph N E) (k k' : N) (f : List (EdgeC N E) → List (EdgeC N E)) :
    outOf (updG g k (fun r => { r with incoming := f r.incoming })) k' = outOf g k' := by
  simp only [outOf, lookupG_updG]
  cases lookupG g k' <;> simp <;> split <;> simp

theorem inOf_updG_out (g : Graph N E) (k k' : N) (f : List (EdgeC N E) → List (EdgeC N E)) :
    inOf (updG g k (fun r => { r with outgoing := f r.outgoing })) k' = inOf g k' := by
  simp only [inOf, lookupG_updG]
  cases lookupG g k' <;> simp <;> split <;> simp

theorem outOf_updG_out_self (g : Graph N E) (k : N) (f : List (EdgeC N E) → List (EdgeC N E))
    (h : isNode g k = true) :
    outOf (updG g k (fun r => { r with outgoing := f r.outgoing })) k = f (outOf g k) := by
  simp only [outOf, lookupG_updG]
  simp only [isNode, Option.isSome_iff_exists] at h
  obtain ⟨r, hr⟩ := h
  simp [hr]

theorem inOf_updG_inc_self (g : Graph N E) (k : N) (f : List (EdgeC N E) → List (EdgeC N E))
    (h : isNode g k = true) :
    inOf (updG g k (fun r => { r with incoming := f r.incoming })) k = f (inOf g k) := by
  simp only [inOf, lookupG_updG]
  simp only [isNode, Option.isSome_iff_exists] at h
  obtain ⟨r, hr⟩ := h
  simp [hr]

theorem mem_insertSorted (x e : EdgeC N E) (l : List (EdgeC N E)) :
    x ∈ insertSorted e l ↔ x = e ∨ x ∈ l := by
  induction l with
  | nil => simp [insertSorted]
  | cons y t ih =>
    simp only [insertSorted]
    split <;> simp [ih] <;> tauto

theorem count_insertSorted (e : EdgeC N E) (l : List (EdgeC N E)) :
    (insertSorted e l).count e = l.count e + 1 := by
  induction l with
  | nil => simp [insertSorted]
  | cons y t ih =>
    simp only [insertSorted]
    split <;> simp [List.count_cons, ih] <;> omega

theorem removeFirst_none (e : EdgeC N E) (l : List (EdgeC N E)) :
    removeFirst e l = none ↔ e ∉ l := by
  induction l with
  | nil => simp [removeFirst]
  | cons y t ih =>
    simp only [removeFirst]
    by_cases hy : y = e
    · simp [hy]
    · simp only [if_neg hy]
      cases h : removeFirst e t <;> simp_all [eq_comm]

theorem count_removeFirst (e : EdgeC N E) (l l' : List (EdgeC N E))
    (h : removeFirst e l = some l') : l.count e = l'.count e + 1 := by
  induction l generalizing l' with
  | nil => simp [removeFirst] at h
  | cons y t ih =>
    simp only [removeFirst] at h
    by_cases hy : y = e
    · simp only [if_pos hy] at h
      cases h
      simp [List.count_cons, hy]
    · simp only [if_neg hy] at h
      cases ht : removeFirst e t with
      | none => simp [ht] at h
      | some t' =>
        simp only [ht, Option.map_some] at h
        cases h
        simp [List.count_cons, hy, ih t' ht]

theorem count_eq_zero_iff_not_mem (e : EdgeC N E) (l : List (EdgeC N E)) :
    l.count e = 0 ↔ e ∉ l := List.count_eq_zero

theorem suffixAt_nil (e : EdgeC N E) (l : List (EdgeC N E)) :
    suffixAt e l = [] ↔ e ∉ l := by
  induction l with
  | nil => simp [suffixAt]
  | cons y t ih =>
    simp only [suffixAt]
    by_cases hy : y = e <;> simp_all [eq_comm]

theorem suffixAt_head (e : EdgeC N E) (l : List (EdgeC N E)) (h : e ∈ l) :
    ∃ t, suffixAt e l = e :: t := by
  induction l with
  | nil => simp at h
  | cons y t ih =>
    simp only [suffixAt]
    by_cases hy : y = e
    · exact ⟨t, by simp [hy]⟩
    · simp only [if_neg hy]
      rcases List.mem_cons.mp h with h1 | h1
      · exact absurd h1.symm hy
      · exact ih h1

theorem existedEdge_false_iff (l : List (EdgeC N E)) (e : EdgeC N E) :
    existedEdge l e = false ↔ e ∉ l := by
  simp only [existedEdge]
  rw [← Bool.not_eq_true, List.any_eq_true]
  simp

/-- Anatomy of a successful `insert_edge`: both endpoints were nodes, no
content-equal edge was stored in either checked set, and the result
links the edge into `src`'s outgoing and `dst`'s incoming set. -/
theorem insertEdge_ok_true {g g' : Graph N E} {src dst : N} {w : Option E}
    (h : insertEdge g src dst w = (g', Except.ok true)) :
    isNode g src = true ∧ isNode g dst = true ∧
    existedEdge (outOf g src) (createEdge src dst w) = false ∧
    existedEdge (inOf g dst) (createEdge src dst w) = false ∧
    g' = updG (updG g src
          (fun r => { r with outgoing := insertSorted (createEdge src dst w) r.outgoing })) dst
          (fun r => { r with incoming := insertSorted (createEdge src dst w) r.incoming }) := by
  by_cases hs : isNode g src = true
  · by_cases hd : isNode g dst = true
    · by_cases hex : (existedEdge (outOf g src) (createEdge src dst w) ||
          existedEdge (inOf g dst) (createEdge src dst w)) = true
      · simp [insertEdge, hs, hd, hex] at h
      · simp only [Bool.or_eq_true, not_or, Bool.not_eq_true] at hex
        simp only [insertEdge, hs, hd, Bool.not_true, Bool.or_self, Bool.false_eq_true,
          if_false, hex.1, hex.2, Bool.or_self] at h
        exact ⟨hs, hd, hex.1, hex.2, (Prod.mk.injEq _ _ _ _ ▸ h).1.symm⟩
    · simp [insertEdge, hs, hd] at h
  · simp [insertEdge, hs] at h

/-- C8.  After a successful `insert_edge(src, dst, w)`,
`find(src, dst, w)` yields a cursor dereferencing to `(src, dst, w)`;
after the subsequent `erase_edge(src, dst, w)` the same `find` returns
the end cursor. -/
theorem find_insert_erase_round_trip (gid : Nat) {g g' : Graph N E} (src dst : N)
    (w : Option E) (h : insertEdge g src dst w = (g', Except.ok true)) :
    derefC (findG gid g' src dst w) = some (src, dst, w) ∧
    findG gid (eraseEdge g' src dst w).1 src dst w = endC gid := by
  obtain ⟨hs, hd, hexo, _, hg'⟩ := insertEdge_ok_true h
  set e := createEdge src dst w with he
  have hs' : isNode g' src = true := by
    rw [hg', isNode_updG, isNode_updG]; exact hs
  have hd' : isNode g' dst = true := by
    rw [hg', isNode_updG, isNode_updG]; exact hd
  have hout' : outOf g' src = insertSorted e (outOf g src) := by
    rw [hg', outOf_updG_inc, outOf_updG_out_self g src _ hs]
  have hnotmem : e ∉ outOf g src := (existedEdge_false_iff _ _).mp hexo
  have hcount' : (outOf g' src).count e = 1 := by
    rw [hout', count_insertSorted, (count_eq_zero_iff_not_mem e _).mpr hnotmem]
  have hmem' : e ∈ outOf g' src := by
    rw [hout']; exact (mem_insertSorted e e _).mpr (Or.inl rfl)
  constructor
  · obtain ⟨t, ht⟩ := suffixAt_head e (outOf g' src) hmem'
    simp only [findG, hs', hd', Bool.not_true, Bool.or_self, Bool.false_eq_true, if_false,
      ← he, ht]
    simp [derefC, he, createEdge]
  · -- the erase removes the unique copy from src's outgoing set
    have hrm : removeFirst e (outOf g' src) ≠ none := fun hn =>
      ((removeFirst_none _ _).mp hn) hmem'
    obtain ⟨out'', hout''⟩ := Option.ne_none_iff_exists'.mp hrm
    have hcnt0 : out''.count e = 0 := by
      have := count_removeFirst e _ _ hout''
      omega
    have hnm'' : e ∉ out'' := (count_eq_zero_iff_not_mem e _).mp hcnt0
    have hmid : outOf (updG g' src fun r => { r with outgoing := out'' }) src = out'' :=
      outOf_updG_out_self g' src (fun _ => out'') hs'
    -- the state after erase_edge: src's outgoing set is out'' in every branch
    have herase : outOf (eraseEdge g' src dst w).1 src = out'' ∧
        isNode (eraseEdge g' src dst w).1 src = true ∧
        isNode (eraseEdge g' src dst w).1 dst = true := by
      simp only [eraseEdge, hs', hd', Bool.not_true, Bool.or_self, Bool.false_eq_true,
        if_false, ← he, hout'']
      cases hin : removeFirst e (inOf (updG g' src fun r => { r with outgoing := out'' }) dst) with
      | none =>
        exact ⟨hmid, by simp [isNode_updG, hs'], by simp [isNode_updG, hd']⟩
      | some inc' =>
        refine ⟨?_, by simp [isNode_updG, hs'], by simp [isNode_updG, hd']⟩
        have h1 : outOf (updG (updG g' src fun r => { r with outgoing := out'' }) dst
            (fun r => { r with incoming := inc' })) src =
            outOf (updG g' src fun r => { r with outgoing := out'' }) src :=
          outOf_updG_inc _ dst src (fun _ => inc')
        rw [h1, hmid]
    obtain ⟨ho, hns, hnd⟩ := herase
    simp only [findG, hns, hnd, Bool.not_true, Bool.or_self, Bool.false_eq_true, if_false,
      ← he, ho, (suffixAt_nil e out'').mpr hnm'']

/-! ## Traversal lemmas -/

theorem iterEdges (es : List (EdgeC N E)) (ns : List (N × NodeRec N E)) :
    ∀ fuel, es.length ≤ fuel → es ≠ [] →
    iterFromFuel (some (ns, es)) fuel =
      es.map flatE ++ iterFromFuel (firstPos ns.tail) (fuel - es.length) := by
  induction es with
  | nil => intro fuel _ hne; exact absurd rfl hne
  | cons e t ih =>
    intro fuel hlen _
    match fuel, hlen with
    | fuel + 1, hlen =>
      cases t with
      | nil => simp [iterFromFuel, incrPos]
      | cons e2 t2 =>
        simp only [iterFromFuel, incrPos, List.map_cons, List.cons_append]
        rw [ih fuel (by simpa using hlen) (by simp)]
        simp only [List.map_cons, List.cons_append, List.length_cons]
        have harith : fuel - (t2.length + 1) = fuel + 1 - (t2.length + 1 + 1) := by omega
        rw [harith]

theorem traverse_eq_flat (g : Graph N E) :
    traverse g = g.flatMap (fun p => p.2.outgoing.map flatE) := by
  suffices h : ∀ (l : List (N × NodeRec N E)) (fuel : Nat), totalEdges l ≤ fuel →
      iterFromFuel (firstPos l) fuel = l.flatMap (fun p => p.2.outgoing.map flatE) by
    exact h g (totalEdges g) le_rfl
  intro l
  induction l with
  | nil => intro fuel _; simp [firstPos, iterFromFuel]
  | cons p t ih =>
    intro fuel hfuel
    obtain ⟨k, r⟩ := p
    have htot : totalEdges ((k, r) :: t) = r.outgoing.length + totalEdges t := by
      simp [totalEdges]
    by_cases hemp : r.outgoing.isEmpty
    · have : r.outgoing = [] := by simpa [List.isEmpty_iff] using hemp
      simp only [firstPos, if_pos hemp, List.flatMap_cons, this, List.map_nil,
        List.nil_append]
      exact ih fuel (by omega)
    · have hne : r.outgoing ≠ [] := by simpa [List.isEmpty_iff] using hemp
      simp only [firstPos, if_neg hemp, List.flatMap_cons]
      rw [iterEdges r.outgoing ((k, r) :: t) fuel (by omega) hne]
      congr 1
      exact ih (fuel - r.outgoing.length) (by omega)

theorem flatMap_filter_ne_nil {α β : Type} (ks : List α) (p : α → Bool) (f : α → List β)
    (hp : ∀ d ∈ ks, p d = false → f d = []) :
    (ks.filter p).flatMap f = ks.flatMap f := by
  induction ks with
  | nil => simp
  | cons d t ih =>
    cases hd : p d with
    | true =>
      rw [List.filter_cons_of_pos hd, List.flatMap_cons, List.flatMap_cons,
        ih (fun x hx h => hp x (List.mem_cons_of_mem d hx) h)]
    | false =>
      rw [List.filter_cons_of_neg (by simp [hd]), List.flatMap_cons,
        hp d (List.mem_cons_self d t) hd, List.nil_append,
        ih (fun x hx h => hp x (List.mem_cons_of_mem d hx) h)]

theorem flatMap_congr_mem {α β : Type} (l : List α) (f f' : α → List β)
    (h : ∀ a ∈ l, f a = f' a) : l.flatMap f = l.flatMap f' := by
  induction l with
  | nil => simp
  | cons a t ih =>
    simp only [List.flatMap_cons, h a (List.mem_cons_self a t)]
    rw [ih (fun x hx => h x (List.mem_cons_of_mem a hx))]

theorem lookupG_of_mem {g : Graph N E} {k : N} {r : NodeRec N E}
    (hpw : List.Pairwise (fun p q => p.1 < q.1) g) (hm : (k, r) ∈ g) :
    lookupG g k = some r := by
  induction g with
  | nil => simp at hm
  | cons p t ih =>
    rcases List.mem_cons.mp hm with h1 | h1
    · subst h1
      simp [lookupG, List.find?_cons_of_pos]
    · have hlt : p.1 < k := (List.pairwise_cons.mp hpw).1 (k, r) h1
      have hne : p.1 ≠ k := ne_of_lt hlt
      rw [lookupG, List.find?_cons_of_neg _ (by simp [hne])]
      exact ih (List.pairwise_cons.mp hpw).2 h1

theorem isNode_iff_mem_nodesL (g : Graph N E) (d : N) :
    isNode g d = true ↔ d ∈ nodesL g := by
  constructor
  · intro h
    cases hf : g.find? (fun p => decide (p.1 = d)) with
    | none => rw [isNode, lookupG, hf] at h; simp at h
    | some q =>
      have hq := List.mem_of_find?_eq_some hf
      have hqd := List.find?_some hf
      simp only [decide_eq_true_eq] at hqd
      exact List.mem_map.mpr ⟨q, hq, hqd⟩
  · intro h
    obtain ⟨p, hp, hpd⟩ := List.mem_map.mp h
    rw [isNode, lookupG]
    cases hf : g.find? (fun p => decide (p.1 = d)) with
    | none =>
      have := List.find?_eq_none.mp hf p hp
      simp [hpd] at this
    | some q => simp

/-- In a list sorted (weakly) by destination whose every element has
destination `d` or a larger one, the elements with destination `d` form
a prefix. -/
theorem split_min (l : List (EdgeC N E)) (d : N)
    (hsort : List.Pairwise (fun a b => a.dst ≤ b.dst) l)
    (hmem : ∀ e ∈ l, e.dst = d ∨ d < e.dst) :
    l.filter (fun e => e.dst = d) ++ l.filter (fun e => ¬ e.dst = d) = l := by
  induction l with
  | nil => simp
  | cons x t ih =>
    obtain ⟨hx, ht⟩ := List.pairwise_cons.mp hsort
    have hrec := ih ht (fun e he => hmem e (List.mem_cons_of_mem x he))
    rcases hmem x (List.mem_cons_self x t) with hxd | hxd
    · rw [List.filter_cons_of_pos (by simp [hxd]),
        List.filter_cons_of_neg (by simp [hxd]), List.cons_append, hrec]
    · have hxne : x.dst ≠ d := ne_of_gt hxd
      have hnone : ∀ e ∈ t, ¬ e.dst = d := fun e he =>
        ne_of_gt (lt_of_lt_of_le hxd (hx e he))
      rw [List.filter_cons_of_neg (by simp [hxne]),
        List.filter_cons_of_pos (by simp [hxne]),
        List.filter_eq_nil_iff.mpr (fun e he => by simp [hnone e he]),
        List.nil_append,
        List.filter_eq_self.mpr (fun e he => by simp [hnone e he])]

theorem edgeLt_dst_le {a b : EdgeC N E} (hsrc : a.src = b.src) (h : edgeLt a b = true) :
    a.dst ≤ b.dst := by
  by_cases hd : a.dst = b.dst
  · exact le_of_eq hd
  · have hlt : decide (a.dst < b.dst) = true := by
      simpa [edgeLt, hsrc, hd] using h
    exact le_of_lt (by simpa using hlt)

/-- Concatenating, over the sorted key list, the destination-filtered
slices of a destination-sorted edge list whose destinations all are
keys, rebuilds the list. -/
theorem concatFilters (ks : List N) (l : List (EdgeC N E))
    (hks : List.Pairwise (fun a b => a < b) ks)
    (hsort : List.Pairwise (fun a b => a.dst ≤ b.dst) l)
    (hsub : ∀ e ∈ l, e.dst ∈ ks) :
    ks.flatMap (fun d => l.filter (fun e => e.dst = d)) = l := by
  induction ks generalizing l with
  | nil =>
    cases l with
    | nil => simp
    | cons e t => exact absurd (hsub e (List.mem_cons_self e t)) (by simp)
  | cons d ks' ih =>
    obtain ⟨hd, hks'⟩ := List.pairwise_cons.mp hks
    have hmem : ∀ e ∈ l, e.dst = d ∨ d < e.dst := by
      intro e he
      rcases List.mem_cons.mp (hsub e he) with h | h
      · exact Or.inl h
      · exact Or.inr (hd _ h)
    have hsort' : List.Pairwise (fun a b => a.dst ≤ b.dst)
        (l.filter (fun e => ¬ e.dst = d)) :=
      List.Pairwise.sublist (List.filter_sublist l) hsort
    have hsub' : ∀ e ∈ l.filter (fun e => ¬ e.dst = d), e.dst ∈ ks' := by
      intro e he
      obtain ⟨hel, hed⟩ := List.mem_filter.mp he
      rcases List.mem_cons.mp (hsub e hel) with h | h
      · simp [h] at hed
      · exact h
    have htail : ∀ d' ∈ ks',
        (l.filter (fun e => ¬ e.dst = d)).filter (fun e => e.dst = d') =
        l.filter (fun e => e.dst = d') := by
      intro d' hd'
      have hdd' : d ≠ d' := ne_of_lt (hd d' hd')
      rw [List.filter_filter]
      apply List.filter_congr
      intro e _
      by_cases hed : e.dst = d' <;> simp [hed, hdd'.symm, Ne.symm]
    rw [List.flatMap_cons,
      flatMap_congr_mem ks' _ _ (fun d' hd' => (htail d' hd').symm),
      ih _ hks' hsort' hsub', split_min l d hsort hmem]

/-- C7, amended.  On a store satisfying the invariant (in particular:
every stored edge's endpoints are nodes — which replace/merge-produced
stores violate), the begin-to-end traversal sequence equals the
concatenation over source nodes in ascending order and destination
nodes in ascending order of the `edges(s, d)` results for every pair
with at least one edge, flattened to `(from, to, weight)` records; a
node with no outgoing edges contributes nothing. -/
theorem traversal_matches_edge_queries (g : Graph N E) (hinv : StoreInv g) :
    traverse g = specConcat g := by
  obtain ⟨hkeys, hrec⟩ := hinv
  rw [traverse_eq_flat]
  unfold specConcat
  rw [flatMap_congr_mem (nodesL g) _ _ (fun s _ => flatMap_filter_ne_nil (nodesL g) _ _
    (by
      intro d _ hd
      have : (edgesL g s d).isEmpty = true := by
        cases h : (edgesL g s d).isEmpty
        · simp [h] at hd
        · rfl
      rw [List.isEmpty_iff.mp this]
      rfl))]
  unfold nodesL
  rw [List.flatMap_map]
  apply flatMap_congr_mem
  intro p hp
  have hout : outOf g p.1 = p.2.outgoing := by
    rw [outOf, lookupG_of_mem hkeys (by exact hp)]
  obtain ⟨hosort, houtinv, _⟩ := hrec p hp
  have hsrc : ∀ e ∈ p.2.outgoing, e.src = p.1 := fun e he => (houtinv e he).1
  have hsort : List.Pairwise (fun a b => a.dst ≤ b.dst) p.2.outgoing := by
    apply List.Pairwise.imp_of_mem _ hosort
    intro a b ha hb hlt
    exact edgeLt_dst_le ((hsrc a ha).trans (hsrc b hb).symm) hlt
  have hsub : ∀ e ∈ p.2.outgoing, e.dst ∈ g.map (fun p => p.1) := by
    intro e he
    exact (isNode_iff_mem_nodesL g e.dst).mp (houtinv e he).2.1
  have hks : List.Pairwise (fun a b => a < b) (g.map (fun p => p.1)) :=
    List.Pairwise.map _ (fun _ _ h => h) hkeys
  calc p.2.outgoing.map flatE
      = ((g.map (fun p => p.1)).flatMap
          (fun d => p.2.outgoing.filter (fun e => e.dst = d))).map flatE := by
        rw [concatFilters _ _ hks hsort hsub]
    _ = (g.map (fun p => p.1)).flatMap (fun d => (edgesL g p.1 d).map flatE) := by
        rw [List.map_flatMap]
        apply flatMap_congr_mem
        intro d _
        rw [edgesL, hout]

theorem traversal_matches_edge_queries_witness :
    StoreInv gW ∧ traverse gW = specConcat gW :=
  ⟨by decide, traversal_matches_edge_queries gW (by decide)⟩

theorem existedEdge_true_iff (l : List (EdgeC N E)) (e : EdgeC N E) :
    existedEdge l e = true ↔ e ∈ l := by
  simp only [existedEdge, List.any_eq_true, decide_eq_true_eq]
  constructor
  · rintro ⟨x, hx, rfl⟩; exact hx
  · intro hx; exact ⟨e, hx, rfl⟩

theorem mem_of_lookupG {g : Graph N E} {k : N} {r : NodeRec N E}
    (h : lookupG g k = some r) : (k, r) ∈ g := by
  unfold lookupG at h
  cases hf : g.find? (fun p => decide (p.1 = k)) with
  | none => rw [hf] at h; simp at h
  | some q =>
    rw [hf] at h
    have hk : q.1 = k := by simpa using List.find?_some hf
    have hr : q.2 = r := by simpa using h
    have : (k, r) = q := by
      obtain ⟨q1, q2⟩ := q
      simp_all
    rw [this]
    exact List.mem_of_find?_eq_some hf

/-- C3, amended.  On a store satisfying the invariant (which rules out
the stale handles that replace/merge leave behind), `insert_edge`
returns `false` leaving the store untouched exactly when an equal edge
is observable between `src` and `dst` (i.e. in the `edges(src, dst)`
result), and otherwise links the edge into `src`'s outgoing and `dst`'s
incoming set and returns `true`. -/
theorem insertEdge_correct (g : Graph N E) (src dst : N) (w : Option E)
    (hinv : StoreInv g) (hs : isNode g src = true) (hd : isNode g dst = true) :
    (createEdge src dst w ∈ edgesL g src dst →
       insertEdge g src dst w = (g, .ok false)) ∧
    (createEdge src dst w ∉ edgesL g src dst →
       (insertEdge g src dst w).2 = .ok true ∧
       createEdge src dst w ∈ outOf (insertEdge g src dst w).1 src ∧
       createEdge src dst w ∈ inOf (insertEdge g src dst w).1 dst) := by
  set e := createEdge src dst w with he
  have hobs : e ∈ edgesL g src dst ↔ e ∈ outOf g src := by
    unfold edgesL
    rw [List.mem_filter]
    simp [he, createEdge]
  constructor
  · intro hmem
    have hex : existedEdge (outOf g src) e = true :=
      (existedEdge_true_iff _ _).mpr (hobs.mp hmem)
    simp [insertEdge, hs, hd, ← he, hex]
  · intro hmem
    have hexo : existedEdge (outOf g src) e = false := by
      cases hx : existedEdge (outOf g src) e
      · rfl
      · exact absurd (hobs.mpr ((existedEdge_true_iff _ _).mp hx)) hmem
    have hexi : existedEdge (inOf g dst) e = false := by
      cases hx : existedEdge (inOf g dst) e
      · rfl
      · -- a content-equal incoming edge at dst is, by the invariant,
        -- also stored in its source's outgoing set
        exfalso
        have hin : e ∈ inOf g dst := (existedEdge_true_iff _ _).mp hx
        obtain ⟨r, hr⟩ := Option.isSome_iff_exists.mp hd
        have hmemg : (dst, r) ∈ g := mem_of_lookupG hr
        have hinr : e ∈ r.incoming := by
          rw [inOf, hr] at hin
          exact hin
        have := (hinv.2 (dst, r) hmemg).2.2 e hinr
        exact hmem (hobs.mpr (by simpa [he, createEdge] using this.2.2))
    have hres : insertEdge g src dst w =
        (updG (updG g src (fun r => { r with outgoing := insertSorted e r.outgoing })) dst
          (fun r => { r with incoming := insertSorted e r.incoming }), .ok true) := by
      simp [insertEdge, hs, hd, ← he, hexo, hexi]
    rw [hres]
    refine ⟨rfl, ?_, ?_⟩
    · have h1 : outOf (updG (updG g src
          (fun r => { r with outgoing := insertSorted e r.outgoing })) dst
          (fun r => { r with incoming := insertSorted e r.incoming })) src =
          outOf (updG g src (fun r => { r with outgoing := insertSorted e r.outgoing })) src :=
        outOf_updG_inc _ dst src (insertSorted e)
      rw [h1, outOf_updG_out_self g src (fun l => insertSorted e l) hs]
      exact (mem_insertSorted e e _).mpr (Or.inl rfl)
    · have hd1 : isNode (updG g src
          (fun r => { r with outgoing := insertSorted e r.outgoing })) dst = true := by
        rw [isNode_updG]; exact hd
      rw [inOf_updG_inc_self _ dst (fun l => insertSorted e l) hd1]
      exact (mem_insertSorted e e _).mpr (Or.inl rfl)

theorem insertEdge_correct_witness :
    StoreInv gW ∧ isNode gW 1 = true ∧ isNode gW 2 = true ∧
    ((createEdge 1 2 (some 3) ∈ edgesL gW 1 2) ∧
      insertEdge gW 1 2 (some 3) = (gW, .ok false)) := by
  refine ⟨by decide, by decide, by decide, by decide, ?_⟩
  exact (insertEdge_correct gW 1 2 (some 3) (by decide) (by decide) (by decide)).1 (by decide)

/-- C3, counterexample.  On the reachable store `gStale2` (edge
`(1, 2, 7)` inserted, `replace_node(1, 3)`, node `1` re-inserted) both
endpoints are nodes and no edge between `1` and `2` is observable
(`edges(1, 2)` is empty), yet `insert_edge(1, 2, 7)` returns `false`:
the stale handle that `replace_node` left in node `2`'s incoming set
makes `existed_edge` report a duplicate. -/
theorem insertEdge_false_without_observable_edge :
    isNode gStale2 1 = true ∧ isNode gStale2 2 = true ∧
    edgesQ gStale2 1 2 = .ok [] ∧
    insertEdge gStale2 1 2 (some 7) = (gStale2, .ok false) := by decide

/-! ## Closure lemmas: no nested throw inside replace/merge on closed stores -/

theorem mem_updG {g : Graph N E} {k : N} {f : NodeRec N E → NodeRec N E}
    {q : N × NodeRec N E} (h : q ∈ updG g k f) :
    ∃ p ∈ g, q = p ∨ (p.1 = k ∧ q = (p.1, f p.2)) := by
  unfold updG at h
  obtain ⟨p, hp, hq⟩ := List.mem_map.mp h
  refine ⟨p, hp, ?_⟩
  by_cases hk : p.1 = k
  · right
    refine ⟨hk, ?_⟩
    rw [if_pos hk] at hq
    exact hq.symm
  · left
    rw [if_neg hk] at hq
    exact hq.symm

theorem isNode_insertEdge (g : Graph N E) (s d k : N) (w : Option E) :
    isNode (insertEdge g s d w).1 k = isNode g k := by
  simp only [insertEdge]
  split
  · rfl
  · split
    · rfl
    · rw [isNode_updG, isNode_updG]

theorem insertEdge_no_throw (g : Graph N E) (s d : N) (w : Option E)
    (hs : isNode g s = true) (hd : isNode g d = true) :
    ∃ b, (insertEdge g s d w).2 = Except.ok b := by
  unfold insertEdge
  simp only [hs, hd, Bool.not_true, Bool.or_self, Bool.false_eq_true, if_false]
  split
  · exact ⟨false, rfl⟩
  · exact ⟨true, rfl⟩

theorem closed_updG_insert (g : Graph N E) (k : N) (e : EdgeC N E)
    (hc : Closed g) (hes : isNode g e.src = true) (hed : isNode g e.dst = true)
    (f : NodeRec N E → NodeRec N E)
    (hf : ∀ r, (∀ x ∈ (f r).outgoing, x = e ∨ x ∈ r.outgoing) ∧
               (∀ x ∈ (f r).incoming, x = e ∨ x ∈ r.incoming)) :
    Closed (updG g k f) := by
  intro q hq
  obtain ⟨p, hp, hcase⟩ := mem_updG hq
  have hn : ∀ x, isNode (updG g k f) x = isNode g x := fun x => isNode_updG g k x f
  obtain ⟨ho, hi⟩ := hc p hp
  rcases hcase with rfl | ⟨hk, rfl⟩
  · exact ⟨fun x hx => by rw [hn, hn]; exact ho x hx,
           fun x hx => by rw [hn, hn]; exact hi x hx⟩
  · refine ⟨fun x hx => ?_, fun x hx => ?_⟩
    · rcases (hf p.2).1 x hx with rfl | hx'
      · rw [hn, hn]; exact ⟨hes, hed⟩
      · rw [hn, hn]; exact ho x hx'
    · rcases (hf p.2).2 x hx with rfl | hx'
      · rw [hn, hn]; exact ⟨hes, hed⟩
      · rw [hn, hn]; exact hi x hx'

theorem closed_insertEdge (g : Graph N E) (s d : N) (w : Option E)
    (hc : Closed g) (hs : isNode g s = true) (hd : isNode g d = true) :
    Closed (insertEdge g s d w).1 := by
  simp only [insertEdge]
  split
  · exact hc
  · split
    · exact hc
    · dsimp only
      have hc1 : Closed (updG g s
          (fun r => { r with outgoing := insertSorted (createEdge s d w) r.outgoing })) := by
        apply closed_updG_insert g s (createEdge s d w) hc hs hd
        intro r
        exact ⟨fun x hx => (mem_insertSorted x _ _).mp hx, fun x hx => Or.inr hx⟩
      apply closed_updG_insert _ d (createEdge s d w) hc1
        (by rw [isNode_updG]; exact hs) (by rw [isNode_updG]; exact hd)
      intro r
      exact ⟨fun x hx => Or.inr hx, fun x hx => (mem_insertSorted x _ _).mp hx⟩

theorem runInserts_ok (probes : List (N × N × Option E)) :
    ∀ g : Graph N E, Closed g →
    (∀ q ∈ probes, isNode g q.1 = true ∧ isNode g q.2.1 = true) →
    (runInserts g probes).2 = none ∧ Closed (runInserts g probes).1 ∧
    (∀ k, isNode (runInserts g probes).1 k = isNode g k) := by
  induction probes with
  | nil => exact fun g hc _ => ⟨rfl, hc, fun _ => rfl⟩
  | cons q rest ih =>
    intro g hc hq
    obtain ⟨q1, q2, q3⟩ := q
    obtain ⟨hs, hd⟩ := hq (q1, q2, q3) (List.mem_cons_self _ rest)
    cases hie : insertEdge g q1 q2 q3 with
    | mk g' r =>
      have hc' : Closed g' := by
        have := closed_insertEdge g q1 q2 q3 hc hs hd
        rwa [hie] at this
      have hn' : ∀ k, isNode g' k = isNode g k := fun k => by
        have := isNode_insertEdge g q1 q2 k q3
        rwa [hie] at this
      cases r with
      | error m =>
        exfalso
        obtain ⟨b, hb⟩ := insertEdge_no_throw g q1 q2 q3 hs hd
        rw [hie] at hb
        simp at hb
      | ok b =>
        have hq' : ∀ x ∈ rest, isNode g' x.1 = true ∧ isNode g' x.2.1 = true := by
          intro x hx
          obtain ⟨h1, h2⟩ := hq x (List.mem_cons_of_mem _ hx)
          exact ⟨by rw [hn']; exact h1, by rw [hn']; exact h2⟩
        have hrec := ih g' hc' hq'
        simp only [runInserts, hie]
        exact ⟨hrec.1, hrec.2.1, fun k => (hrec.2.2 k).trans (hn' k)⟩

theorem closed_of_storeInv {g : Graph N E} (h : StoreInv g) : Closed g := by
  intro p hp
  obtain ⟨_, hrec⟩ := h
  obtain ⟨_, ho, hi⟩ := hrec p hp
  have hp1 : isNode g p.1 = true :=
    (isNode_iff_mem_nodesL g p.1).mpr (List.mem_map.mpr ⟨p, hp, rfl⟩)
  constructor
  · intro e he
    refine ⟨?_, (ho e he).2.1⟩
    rw [(ho e he).1]
    exact hp1
  · intro e he
    refine ⟨(hi e he).2.1, ?_⟩
    rw [(hi e he).1]
    exact hp1

theorem moveNodeData_ok (g : Graph N E) (old new : N)
    (hc : Closed g) (hold : isNode g old = true) (hnew : isNode g new = true) :
    (moveNodeData g old new).2 = none := by
  have hq1 : ∀ q ∈ (outOf g old).map (fun e => (new, e.dst, e.weight)),
      isNode g q.1 = true ∧ isNode g q.2.1 = true := by
    intro q hqm
    obtain ⟨e, he, rfl⟩ := List.mem_map.mp hqm
    refine ⟨hnew, ?_⟩
    obtain ⟨r, hr⟩ := Option.isSome_iff_exists.mp hold
    have hmem : (old, r) ∈ g := mem_of_lookupG hr
    have her : e ∈ r.outgoing := by
      rw [outOf, hr] at he
      exact he
    exact ((hc (old, r) hmem).1 e her).2
  have h1 := runInserts_ok _ g hc hq1
  cases hrun : runInserts g ((outOf g old).map fun e => (new, e.dst, e.weight)) with
  | mk g1 r1 =>
    rw [hrun] at h1
    cases r1 with
    | some m => simp at h1
    | none =>
      have hc1 : Closed g1 := h1.2.1
      have hn1 : ∀ k, isNode g1 k = isNode g k := h1.2.2
      have hold1 : isNode g1 old = true := by rw [hn1]; exact hold
      have hq2 : ∀ q ∈ (inOf g1 old).map (fun e => (e.src, new, e.weight)),
          isNode g1 q.1 = true ∧ isNode g1 q.2.1 = true := by
        intro q hqm
        obtain ⟨e, he, rfl⟩ := List.mem_map.mp hqm
        refine ⟨?_, by rw [hn1]; exact hnew⟩
        obtain ⟨r, hr⟩ := Option.isSome_iff_exists.mp hold1
        have hmem : (old, r) ∈ g1 := mem_of_lookupG hr
        have her : e ∈ r.incoming := by
          rw [inOf, hr] at he
          exact he
        exact ((hc1 (old, r) hmem).2 e her).1
      have h2 := runInserts_ok _ g1 hc1 hq2
      cases hrun2 : runInserts g1 ((inOf g1 old).map fun e => (e.src, new, e.weight)) with
      | mk g2 r2 =>
        rw [hrun2] at h2
        cases r2 with
        | some m => simp at h2
        | none =>
          unfold moveNodeData
          rw [hrun]
          dsimp only
          rw [hrun2]

theorem mem_insKey {g : Graph N E} {v : N} {q : N × NodeRec N E}
    (h : q ∈ insKey v g) : q = (v, ⟨[], []⟩) ∨ q ∈ g := by
  induction g with
  | nil =>
    simp only [insKey, List.mem_singleton] at h
    exact Or.inl h
  | cons p t ih =>
    obtain ⟨k', r⟩ := p
    simp only [insKey] at h
    split at h
    · rcases List.mem_cons.mp h with h1 | h1
      · exact Or.inl h1
      · exact Or.inr h1
    · rcases List.mem_cons.mp h with h1 | h1
      · exact Or.inr (h1 ▸ List.mem_cons_self _ t)
      · rcases ih h1 with h2 | h2
        · exact Or.inl h2
        · exact Or.inr (List.mem_cons_of_mem _ h2)

theorem isNode_insKey_self (g : Graph N E) (v : N) :
    isNode (insKey v g) v = true := by
  induction g with
  | nil => simp [insKey, isNode, lookupG, List.find?_cons_of_pos]
  | cons p t ih =>
    obtain ⟨k', r⟩ := p
    simp only [insKey]
    split
    · simp [isNode, lookupG, List.find?_cons_of_pos]
    · by_cases hv : k' = v
      · simp [isNode, lookupG, List.find?_cons_of_pos, hv]
      · simp only [isNode, lookupG] at ih ⊢
        rw [List.find?_cons_of_neg _ (by simp [hv])]
        exact ih

theorem isNode_insKey_mono (g : Graph N E) (v k : N) (h : isNode g k = true) :
    isNode (insKey v g) k = true := by
  induction g with
  | nil => simp [isNode, lookupG] at h
  | cons p t ih =>
    obtain ⟨k', r⟩ := p
    simp only [insKey]
    split
    · simp only [isNode, lookupG] at h ⊢
      by_cases hvk : v = k
      · rw [List.find?_cons_of_pos _ (by simp [hvk])]
        rfl
      · rw [List.find?_cons_of_neg _ (by simp [hvk])]
        exact h
    · by_cases hk : k' = k
      · simp [isNode, lookupG, List.find?_cons_of_pos, hk]
      · simp only [isNode, lookupG] at h ih ⊢
        rw [List.find?_cons_of_neg _ (by simp [hk])] at h
        rw [List.find?_cons_of_neg _ (by simp [hk])]
        exact ih h

theorem closed_insKey (g : Graph N E) (v : N) (hc : Closed g) :
    Closed (insKey v g) := by
  intro q hq
  rcases mem_insKey hq with rfl | hq'
  · exact ⟨fun x hx => by simp at hx, fun x hx => by simp at hx⟩
  · obtain ⟨ho, hi⟩ := hc q hq'
    exact ⟨fun x hx => ⟨isNode_insKey_mono g v _ (ho x hx).1,
        isNode_insKey_mono g v _ (ho x hx).2⟩,
      fun x hx => ⟨isNode_insKey_mono g v _ (hi x hx).1,
        isNode_insKey_mono g v _ (hi x hx).2⟩⟩

/-- C5, amended.  On a store satisfying the invariant, each of the seven
argument-checked operations raises exactly when its required node
argument(s) are absent, with its operation-specific verbatim message,
and a raising call returns the store unchanged; when the required nodes
are present the call completes without raising (on an invariant-breaking
store, `replace_node`/`merge_replace_node` can instead throw
`insert_edge`'s message from inside `move_node_data`, after mutating). -/
theorem argument_checks (g : Graph N E) (hinv : StoreInv g)
    (s d o n c : N) (w : Option E) :
    (¬ (isNode g s = true ∧ isNode g d = true) →
        insertEdge g s d w = (g, .error msgInsertEdge)) ∧
    ((isNode g s = true ∧ isNode g d = true) →
        ∃ b, (insertEdge g s d w).2 = .ok b) ∧
    (¬ isNode g o = true → replaceNode g o n = (g, .error msgReplaceNode)) ∧
    (isNode g o = true → ∃ b, (replaceNode g o n).2 = .ok b) ∧
    (¬ (isNode g o = true ∧ isNode g n = true) →
        mergeReplaceNode g o n = (g, .error msgMergeReplace)) ∧
    ((isNode g o = true ∧ isNode g n = true) →
        (mergeReplaceNode g o n).2 = .ok ()) ∧
    (¬ (isNode g s = true ∧ isNode g d = true) →
        eraseEdge g s d w = (g, .error msgEraseEdge)) ∧
    ((isNode g s = true ∧ isNode g d = true) →
        ∃ b, (eraseEdge g s d w).2 = .ok b) ∧
    (¬ (isNode g s = true ∧ isNode g d = true) →
        isConnected g s d = .error msgIsConnected) ∧
    ((isNode g s = true ∧ isNode g d = true) → ∃ b, isConnected g s d = .ok b) ∧
    (¬ (isNode g s = true ∧ isNode g d = true) → edgesQ g s d = .error msgEdges) ∧
    ((isNode g s = true ∧ isNode g d = true) → ∃ l, edgesQ g s d = .ok l) ∧
    (¬ isNode g c = true → connections g c = .error msgConnections) ∧
    (isNode g c = true → ∃ l, connections g c = .ok l) := by
  have habs : ∀ a b : Bool, ¬ (a = true ∧ b = true) → (!a || !b) = true := by
    intro a b h
    cases a <;> cases b <;> simp_all
  refine ⟨?_, ?_, ?_, ?_, ?_, ?_, ?_, ?_, ?_, ?_, ?_, ?_, ?_, ?_⟩
  · intro h
    simp [insertEdge, habs _ _ h]
  · rintro ⟨hs, hd⟩
    exact insertEdge_no_throw g s d w hs hd
  · intro h
    simp only [Bool.not_eq_true] at h
    simp [replaceNode, h]
  · intro ho
    by_cases hn : isNode g n = true
    · exact ⟨false, by simp [replaceNode, ho, hn]⟩
    · have hc1 : Closed (insKey n g) := closed_insKey g n (closed_of_storeInv hinv)
      have hmv := moveNodeData_ok (insKey n g) o n hc1
        (isNode_insKey_mono g n o ho) (isNode_insKey_self g n)
      cases hrun : moveNodeData (insKey n g) o n with
      | mk g2 r2 =>
        rw [hrun] at hmv
        cases r2 with
        | some m => simp at hmv
        | none =>
          refine ⟨true, ?_⟩
          have hg1 : (insertNode g n).1 = insKey n g := by
            simp [insertNode, hn]
          simp only [replaceNode, ho, Bool.not_true, Bool.false_eq_true, if_false, hn,
            if_false, hg1, hrun]
  · intro h
    simp [mergeReplaceNode, habs _ _ h]
  · rintro ⟨ho, hn⟩
    by_cases heq : o = n
    · simp [mergeReplaceNode, ho, hn, heq]
    · have hmv := moveNodeData_ok g o n (closed_of_storeInv hinv) ho hn
      cases hrun : moveNodeData g o n with
      | mk g2 r2 =>
        rw [hrun] at hmv
        cases r2 with
        | some m => simp at hmv
        | none => simp [mergeReplaceNode, ho, hn, heq, hrun]
  · intro h
    simp [eraseEdge, habs _ _ h]
  · rintro ⟨hs, hd⟩
    unfold eraseEdge
    simp only [hs, hd, Bool.not_true, Bool.or_self, Bool.false_eq_true, if_false]
    split
    · exact ⟨false, rfl⟩
    · split
      · exact ⟨false, rfl⟩
      · exact ⟨true, rfl⟩
  · intro h
    simp [isConnected, habs _ _ h]
  · rintro ⟨hs, hd⟩
    refine ⟨(outOf g s).any (fun e => e.dst = d), ?_⟩
    simp [isConnected, hs, hd]
  · intro h
    simp [edgesQ, habs _ _ h]
  · rintro ⟨hs, hd⟩
    refine ⟨edgesL g s d, ?_⟩
    simp [edgesQ, hs, hd]
  · intro h
    simp only [Bool.not_eq_true] at h
    simp [connections, h]
  · intro hc
    refine ⟨(outOf g c).foldl (fun acc e => insUnique e.dst acc) [], ?_⟩
    simp [connections, hc]

theorem argument_checks_witness :
    StoreInv gW ∧
    insertEdge gW 7 8 none = (gW, .error msgInsertEdge) ∧
    replaceNode gW 7 8 = (gW, .error msgReplaceNode) ∧
    mergeReplaceNode gW 7 8 = (gW, .error msgMergeReplace) ∧
    eraseEdge gW 7 8 none = (gW, .error msgEraseEdge) ∧
    isConnected gW 7 8 = .error msgIsConnected ∧
    edgesQ gW 7 8 = .error msgEdges ∧
    connections gW 7 = .error msgConnections := by
  have h := argument_checks gW (by decide) 7 8 7 8 7 none
  refine ⟨by decide, h.1 (by decide), h.2.2.1 (by decide), h.2.2.2.2.1 (by decide),
    h.2.2.2.2.2.2.1 (by decide), h.2.2.2.2.2.2.2.2.1 (by decide),
    h.2.2.2.2.2.2.2.2.2.2.1 (by decide), h.2.2.2.2.2.2.2.2.2.2.2.2.1 (by decide)⟩

/-- C5, counterexample.  On the reachable store `gStale` the invariant
fails, and `replace_node(2, 4)` — whose required node `2` is present, so
by the claim it must not raise — throws with *`insert_edge`'s* verbatim
message from inside `move_node_data`, after having already inserted node
`4`: the raising call does not leave the store unchanged. -/
theorem replaceNode_throws_after_mutation :
    isNode gStale 2 = true ∧
    (replaceNode gStale 2 4).2 = .error msgInsertEdge ∧
    (replaceNode gStale 2 4).1 ≠ gStale := by decide

/-- C7, counterexample.  On the reachable store `gStale` (nodes `{1,2}`,
edge `(2,1,5)`, then `replace_node(1,3)`) the traversal still visits the
stale edge `(2, 1, 5)` although `1` is not a node, so no `edges(s, d)`
query can produce it (for `d = 1` the query throws) and the
concatenation misses it. -/
theorem traversal_mismatch_on_stale_store :
    traverse gStale ≠ specConcat gStale := by decide

theorem find_insert_erase_round_trip_witness :
    insertEdge gW 2 1 (some 9) = ((insertEdge gW 2 1 (some 9)).1, Except.ok true) ∧
    derefC (findG 0 (insertEdge gW 2 1 (some 9)).1 2 1 (some 9)) = some (2, 1, some 9) ∧
    findG 0 (eraseEdge (insertEdge gW 2 1 (some 9)).1 2 1 (some 9)).1 2 1 (some 9) =
      endC 0 := by
  refine ⟨by decide, ?_, ?_⟩ <;>
    have h := @find_insert_erase_round_trip Nat Nat _ _ 0 gW
      ((insertEdge gW 2 1 (some 9)).1) 2 1 (some 9) (by decide)
  · exact h.1
  · exact h.2

end GDWG
